import Mathlib

/-!
Verification of the request chain builder (`RequestBuilder` / `Requests`)
from `ethcore/light/src/types/request/builder.rs`.

The builder accumulates a sequence of requests, validating at push time that
every back-reference inside a new request resolves to an output already
declared by an earlier request, with matching output kind.  The resulting
`Requests` batch drives the answer/response protocol: responses are supplied
strictly in order, each successful response records its outputs and propagates
them into the unresolved fields of the remaining requests.

The generic trait `IncompleteRequest` (fields, back-references, declared
outputs, `check_outputs` / `note_outputs` / `fill` / `complete`) and the
`Response` capability (`fill_outputs`) live outside the excerpted source;
they are modelled here from the specification's data model.  Everything
about `RequestBuilder` and `Requests` is translated directly from the source.
-/

namespace Parity

/-- Opaque equality-comparable tag classifying an output value (`OutputKind`). -/
abbrev OutputKind := Nat

/-- A concrete resolved output value (`Output`). -/
abbrev Output := Nat

/-- Modelled from the spec: a request field is either a concrete literal or a
back-reference `(request_index, output_index)` pointing at an output produced
earlier in the batch (spec §3, "Request (abstract)"; `Field` in the `request`
module is not part of the excerpted source). -/
inductive Field where
  | scalar (v : Output)
  | backRef (req : Nat) (idx : Nat)
deriving DecidableEq

/-- Modelled from the spec: an incomplete request is a value with zero or more
fields, each a literal or a back-reference carrying a required `OutputKind`,
together with the list of kinds of the outputs the request declares it will
produce (spec §3).  Stands in for a concrete `T : IncompleteRequest`. -/
structure Req where
  fields : List (Field × OutputKind)
  outputs : List OutputKind
deriving DecidableEq

/-- Modelled from the spec: a fully-resolved request: every back-reference
replaced by the concrete value it refers to (spec glossary,
"Resolved/complete request"; `T::Complete`). -/
structure CompleteReq where
  values : List Output
deriving DecidableEq

/-- Modelled from the spec: a response exposes the concrete output values it
carries, tagged by output index (spec §6, `fill_outputs`). -/
structure Response where
  outs : List (Nat × Output)
deriving DecidableEq

/-- The `NoSuchOutput` unit error type. -/
inductive NoSuchOutput where
  | noSuchOutput
deriving DecidableEq

/-- `ResponseError<E>`: `Unexpected` (no pending request) or `Validity(inner)`. -/
inductive ResponseError (E : Type) where
  | unexpected
  | validity (e : E)
deriving DecidableEq

/-- Modelled from the spec: `check_outputs` runs the supplied checker on every
back-reference field (source index, output index, required kind) and succeeds
only if every check passes (spec §4.1 / §6). -/
def Req.check_outputs (r : Req) (f : Nat → Nat → OutputKind → Bool) : Bool :=
  r.fields.all fun fk =>
    match fk.1 with
    | .scalar _ => true
    | .backRef s j => f s j fk.2

/-- Modelled from the spec: `note_outputs` enumerates the declared outputs of a
request as `(output_index, kind)` pairs (spec §4.1 / §6). -/
def Req.note_outputs (r : Req) : List (Nat × OutputKind) :=
  r.outputs.enum

/-- Modelled from the spec: `fill` replaces each still-unresolved back-reference
whose value the resolver can produce; fields the resolver cannot yet resolve
are left untouched (spec §4.2 step 6 / §6). -/
def Req.fill (r : Req) (oracle : Nat → Nat → Option Output) : Req :=
  { r with
    fields := r.fields.map fun fk =>
      match fk.1 with
      | .scalar _ => fk
      | .backRef s j =>
        match oracle s j with
        | some v => (Field.scalar v, fk.2)
        | none => fk }

/-- The value of a field when it is already resolved, `none` for a still
unresolved back-reference. -/
def fieldValue (fk : Field × OutputKind) : Option Output :=
  match fk.1 with
  | Field.scalar v => some v
  | Field.backRef _ _ => none

/-- The values of a field list, defined when every field is resolved. -/
def completeFields : List (Field × OutputKind) → Option (List Output)
  | [] => some []
  | fk :: tl =>
    match fieldValue fk with
    | some v => (completeFields tl).map (fun vs => v :: vs)
    | none => none

/-- Modelled from the spec: `complete` converts a request to its fully-resolved
form; it fails exactly when some back-reference field is still unresolved
(spec §4.2, `next_complete`; §6). -/
def Req.complete (r : Req) : Option CompleteReq :=
  (completeFields r.fields).map CompleteReq.mk

/-- Lookup in an association-list model of `HashMap<(usize, usize), V>`. -/
def mapGet {α : Type} (m : List ((Nat × Nat) × α)) (k : Nat × Nat) : Option α :=
  match m with
  | [] => none
  | (k', v) :: rest => if k' = k then some v else mapGet rest k

/-- Insert in an association-list model of `HashMap<(usize, usize), V>`:
replaces the value if the key is present, appends otherwise. -/
def mapInsert {α : Type} (m : List ((Nat × Nat) × α)) (k : Nat × Nat) (v : α) :
    List ((Nat × Nat) × α) :=
  match m with
  | [] => [(k, v)]
  | (k', v') :: rest => if k' = k then (k, v) :: rest else (k', v') :: mapInsert rest k v

/-- `RequestBuilder<T>`: the accumulated output-kind map and pushed requests. -/
structure RequestBuilder where
  output_kinds : List ((Nat × Nat) × OutputKind)
  requests : List Req
deriving DecidableEq

/-- `RequestBuilder::default()`: empty map, no requests. -/
def RequestBuilder.empty : RequestBuilder :=
  { output_kinds := [], requests := [] }

/-- `RequestBuilder::push`: check every back-reference of the request against
the accumulated output-kind map (entry must exist with equal kind); on failure
return `NoSuchOutput` with the builder unchanged; on success note the request's
declared outputs at `(req_idx, idx)` where `req_idx` is the length before the
append, then append the request. -/
def RequestBuilder.push (b : RequestBuilder) (r : Req) :
    RequestBuilder × Except NoSuchOutput Unit :=
  if r.check_outputs (fun s j kind =>
      match mapGet b.output_kinds (s, j) with
      | some k => k = kind
      | none => false)
  then
    let req_idx := b.requests.length
    let kinds := r.note_outputs.foldl
      (fun m p => mapInsert m (req_idx, p.1) p.2) b.output_kinds
    ({ output_kinds := kinds, requests := b.requests ++ [r] }, .ok ())
  else (b, .error .noSuchOutput)

/-- `Requests<T>`: resolved-output map, request sequence, answered cursor. -/
structure Requests where
  outputs : List ((Nat × Nat) × Output)
  requests : List Req
  answered : Nat
deriving DecidableEq

/-- `RequestBuilder::build`: empty resolved-output map, `answered = 0`. -/
def RequestBuilder.build (b : RequestBuilder) : Requests :=
  { outputs := [], requests := b.requests, answered := 0 }

/-- `Requests::num_answered`. -/
def Requests.num_answered (rs : Requests) : Nat := rs.answered

/-- `Requests::is_complete`: `answered == requests.len()`. -/
def Requests.is_complete (rs : Requests) : Bool :=
  rs.answered = rs.requests.length

/-- Result of `Requests::next_complete`, with the two panic sites
(out-of-bounds indexing and the `.expect` on `complete()`) made explicit. -/
inductive NextComplete where
  | done
  | next (c : CompleteReq)
  | invariantViolated
deriving DecidableEq

/-- `Requests::next_complete`: `None` when all requests answered, otherwise the
request at the cursor converted to its fully-resolved form; the conversion
failing is the `.expect` panic, modelled as `invariantViolated`. -/
def Requests.next_complete (rs : Requests) : NextComplete :=
  if rs.is_complete then .done
  else
    match rs.requests.get? rs.answered with
    | none => .invariantViolated
    | some r =>
      match r.complete with
      | some c => .next c
      | none => .invariantViolated

/-- The propagation pass of `supply_response`: fill every request at index
`≥ n` (the advanced cursor) from the resolved-output map. -/
def fillFrom (reqs : List Req) (n : Nat) (outs : List ((Nat × Nat) × Output)) :
    List Req :=
  reqs.enum.map fun p =>
    if n ≤ p.1 then p.2.fill (fun s j => mapGet outs (s, j)) else p.2

/-- `Requests::supply_response`, generic over the environment, validity-error
and extract types of `CheckedRequest` and over its `check_response` capability.
`none` models a panic (the guarded `.expect` or out-of-bounds indexing).
On `Unexpected` or `Validity` the state is returned unchanged; on success the
response's outputs are recorded at `(answered, out_idx)`, the cursor advances,
and the propagation pass fills the remaining requests. -/
def Requests.supply_response {Env E X : Type}
    (check : Req → CompleteReq → Env → Response → Except E X)
    (rs : Requests) (env : Env) (response : Response) :
    Option (Requests × Except (ResponseError E) X) :=
  let idx := rs.answered
  if idx = rs.requests.length then some (rs, .error .unexpected)
  else
    match rs.next_complete with
    | .done => none
    | .invariantViolated => none
    | .next completed =>
      match rs.requests.get? idx with
      | none => none
      | some req =>
        match check req completed env response with
        | .error e => some (rs, .error (.validity e))
        | .ok extracted =>
          let outs := response.outs.foldl
            (fun m p => mapInsert m (idx, p.1) p.2) rs.outputs
          some ({ outputs := outs,
                  requests := fillFrom rs.requests (idx + 1) outs,
                  answered := idx + 1 }, .ok extracted)

/-- `Requests::map_requests`: apply `f` to every request, keep the
resolved-output map and the cursor. -/
def Requests.map_requests (rs : Requests) (f : Req → Req) : Requests :=
  { outputs := rs.outputs, requests := rs.requests.map f, answered := rs.answered }

/-- `Requests::respond_to_all`: repeatedly take the next complete request, ask
the responder for a response and supply it; record the response on success,
stop on the first absent next request, absent response or rejected response.
`none` models a panic propagated from `next_complete` / `supply_response`
(`Extract = ()` and `Environment = ()`, as in `Requests<Request>`). -/
def Requests.respond_to_all {E : Type}
    (check : Req → CompleteReq → Unit → Response → Except E Unit)
    (responder : CompleteReq → Option Response)
    (rs : Requests) : Option (List Response) :=
  match hnc : rs.next_complete with
  | .done => some []
  | .invariantViolated => none
  | .next c =>
    match responder c with
    | none => some []
    | some response =>
      match hsr : Requests.supply_response check rs () response with
      | none => none
      | some (_, Except.error _) => some []
      | some (rs', Except.ok _) =>
        match Requests.respond_to_all check responder rs' with
        | none => none
        | some rest => some (response :: rest)
termination_by rs.requests.length - rs.answered
decreasing_by
  simp only [Requests.supply_response] at hsr
  split at hsr
  · simp at hsr
  · rw [hnc] at hsr
    split at hsr
    · simp at hsr
    · simp at hsr
    · split at hsr
      · simp at hsr
      · rename_i req hget
        split at hsr
        · simp at hsr
        · simp only [Option.some.injEq, Prod.mk.injEq] at hsr
          obtain ⟨hrs, -⟩ := hsr
          have hlt : rs.answered < rs.requests.length := by
            by_contra hge
            rw [List.get?_eq_none.mpr (Nat.le_of_not_lt hge)] at hget
            exact Option.noConfusion hget
          have hlen : rs'.requests.length = rs.requests.length := by
            rw [← hrs]
            simp [fillFrom]
          have hans : rs'.answered = rs.answered + 1 := by rw [← hrs]
          omega

/-- A request with no remaining back-reference fields. -/
def NoBackRefs (r : Req) : Prop :=
  ∀ fk ∈ r.fields, ∀ s j, fk.1 ≠ Field.backRef s j

/-- Builder invariant: the output-kind map holds exactly the declared outputs
of the pushed requests, and every back-reference of a pushed request points
strictly back at a declared output of matching kind. -/
def BuilderInv (b : RequestBuilder) : Prop :=
  (∀ s j k, mapGet b.output_kinds (s, j) = some k →
    ∃ rq, b.requests.get? s = some rq ∧ rq.outputs.get? j = some k) ∧
  (∀ s rq, b.requests.get? s = some rq →
    ∀ j k, rq.outputs.get? j = some k → mapGet b.output_kinds (s, j) = some k) ∧
  (∀ i rq, b.requests.get? i = some rq → ∀ fk ∈ rq.fields, ∀ s j,
    fk.1 = Field.backRef s j →
    s < i ∧ ∃ rq2, b.requests.get? s = some rq2 ∧ rq2.outputs.get? j = some fk.2)

/-- Builders reachable from `RequestBuilder::default()` by successful pushes. -/
inductive BuilderReach : RequestBuilder → Prop where
  | empty : BuilderReach RequestBuilder.empty
  | push {b b' : RequestBuilder} {r : Req} : BuilderReach b →
      RequestBuilder.push b r = (b', Except.ok ()) → BuilderReach b'

/-- The `CheckedRequest` capability contract: a response accepted by
`check_response` carries a value for every output its request declared
(spec §6, `fill_outputs`; the basis for the `qed` invariant in
`next_complete`). -/
def RespOutsCover {Env E X : Type}
    (check : Req → CompleteReq → Env → Response → Except E X) : Prop :=
  ∀ req compl env resp x, check req compl env resp = Except.ok x →
    ∀ j, j < req.outputs.length → ∃ v, (j, v) ∈ resp.outs

/-- `Requests` values obtained by `build()` from a builder whose requests were
all accepted by `push`, evolved only by successful `supply_response` calls. -/
inductive ReqsReach {Env E X : Type}
    (check : Req → CompleteReq → Env → Response → Except E X) :
    Requests → Prop where
  | build {b : RequestBuilder} : BuilderReach b → ReqsReach check b.build
  | step {rs rs' : Requests} {env : Env} {resp : Response} {x : X} :
      ReqsReach check rs →
      Requests.supply_response check rs env resp = some (rs', Except.ok x) →
      ReqsReach check rs'

/-- Resolution invariant of a `Requests` value: the cursor is in range, every
back-reference points strictly back at a declared output slot, every answered
request's declared outputs are in the resolved-output map, and every request
up to and including the cursor is fully resolved. -/
def ReqInv (rs : Requests) : Prop :=
  rs.answered ≤ rs.requests.length ∧
  (∀ i rq, rs.requests.get? i = some rq → ∀ fk ∈ rq.fields, ∀ s j,
    fk.1 = Field.backRef s j →
    s < i ∧ ∃ rq2, rs.requests.get? s = some rq2 ∧ j < rq2.outputs.length) ∧
  (∀ s, s < rs.answered → ∀ rq, rs.requests.get? s = some rq →
    ∀ j, j < rq.outputs.length → ∃ v, mapGet rs.outputs (s, j) = some v) ∧
  (∀ i, i ≤ rs.answered → ∀ rq, rs.requests.get? i = some rq → NoBackRefs rq)

/-- The specification of one `respond_to_all` run, as stated in the spec:
stop when `next_complete` yields nothing, when the responder yields nothing,
or when `supply_response` rejects the response (the rejected response is not
recorded); on success record the response and continue. -/
inductive RespondSpec {E : Type}
    (check : Req → CompleteReq → Unit → Response → Except E Unit)
    (responder : CompleteReq → Option Response) :
    Requests → List Response → Prop where
  | stopDone {rs : Requests} : rs.next_complete = NextComplete.done →
      RespondSpec check responder rs []
  | stopNoResponse {rs : Requests} {c : CompleteReq} :
      rs.next_complete = NextComplete.next c → responder c = none →
      RespondSpec check responder rs []
  | stopRejected {rs rs' : Requests} {c : CompleteReq} {resp : Response}
      {e : ResponseError E} :
      rs.next_complete = NextComplete.next c → responder c = some resp →
      Requests.supply_response check rs () resp = some (rs', Except.error e) →
      RespondSpec check responder rs []
  | step {rs rs' : Requests} {c : CompleteReq} {resp : Response}
      {l : List Response} :
      rs.next_complete = NextComplete.next c → responder c = some resp →
      Requests.supply_response check rs () resp = some (rs', Except.ok ()) →
      RespondSpec check responder rs' l →
      RespondSpec check responder rs (resp :: l)

/-! Concrete values for the witnesses, following the spec's Scenario A:
a request with a literal field that declares one output of kind `0`,
followed by requests back-referencing output `(0, 0)`. -/

/-- A request with one literal field, declaring one output of kind `0`. -/
def reqA : Req := ⟨[(Field.scalar 100, 0)], [0]⟩

/-- A request whose single field back-references output `(0, 0)`, requiring
kind `0`, and which declares no outputs. -/
def reqB : Req := ⟨[(Field.backRef 0 0, 0)], []⟩

/-- `reqB` after output `(0, 0)` resolved to the value `55`. -/
def reqBFilled : Req := ⟨[(Field.scalar 55, 0)], []⟩

/-- Whether a response carries a value for every output the request declares. -/
def coversB (req : Req) (resp : Response) : Bool :=
  (List.range req.outputs.length).all fun j => resp.outs.any fun p => p.1 = j

/-- A concrete `check_response`: accept exactly the responses that carry a
value for every declared output of the request. -/
def demoCheck : Req → CompleteReq → Unit → Response → Except Unit Unit :=
  fun req _ _ resp => if coversB req resp then Except.ok () else Except.error ()

/-- The builder after pushing `reqA`. -/
def demoB1 : RequestBuilder := ⟨[((0, 0), 0)], [reqA]⟩

/-- The builder after pushing `reqA`, `reqB`. -/
def demoB2 : RequestBuilder := ⟨[((0, 0), 0)], [reqA, reqB]⟩

/-- The builder after pushing `reqA`, `reqB`, `reqB`. -/
def demoB3 : RequestBuilder := ⟨[((0, 0), 0)], [reqA, reqB, reqB]⟩

/-- The built batch of the three demo requests. -/
def demoRs0 : Requests := ⟨[], [reqA, reqB, reqB], 0⟩

/-- A response to `reqA` carrying the value `55` for output index `0`. -/
def demoResp : Response := ⟨[(0, 55)]⟩

/-- The batch after supplying `demoResp` for request `0`: its output is
recorded at `(0, 0)` and both back-references are filled. -/
def demoRs1 : Requests := ⟨[((0, 0), 55)], [reqA, reqBFilled, reqBFilled], 1⟩

/-- A request back-referencing output `(5, 0)`, which no prior request of the
demo builders declares. -/
def demoBadReq : Req := ⟨[(Field.backRef 5 0, 0)], []⟩

/-- A response carrying no outputs: rejected by `demoCheck` for any request
that declares at least one output. -/
def demoBadResp : Response := ⟨[]⟩

/-- An empty, already-complete batch. -/
def demoRsEmpty : Requests := ⟨[], [], 0⟩

/-- A responder that always answers with `demoResp`. -/
def demoResponder : CompleteReq → Option Response := fun _ => some demoResp

/-! Lemmas about the association-list map. -/

theorem mapGet_mapInsert_self {α : Type} (m : List ((Nat × Nat) × α))
    (k : Nat × Nat) (v : α) : mapGet (mapInsert m k v) k = some v := by
  induction m with
  | nil => simp [mapInsert, mapGet]
  | cons p rest ih =>
    obtain ⟨k', v'⟩ := p
    by_cases h : k' = k
    · simp [mapInsert, mapGet, h]
    · simp [mapInsert, mapGet, h, ih]

theorem mapGet_mapInsert_ne {α : Type} (m : List ((Nat × Nat) × α))
    (k k' : Nat × Nat) (v : α) (h : k' ≠ k) :
    mapGet (mapInsert m k v) k' = mapGet m k' := by
  have h2 : ¬k = k' := fun hc => h hc.symm
  induction m with
  | nil => simp [mapInsert, mapGet, h2]
  | cons p rest ih =>
    obtain ⟨k0, v0⟩ := p
    by_cases h0 : k0 = k
    · subst h0
      simp [mapInsert, mapGet, h2]
    · simp [mapInsert, mapGet, h0, ih]

theorem mapGet_mapInsert_isSome {α : Type} (m : List ((Nat × Nat) × α))
    (k k' : Nat × Nat) (v : α) (h : (mapGet m k').isSome) :
    (mapGet (mapInsert m k v) k').isSome := by
  by_cases hk : k' = k
  · subst hk
    rw [mapGet_mapInsert_self]
    rfl
  · rw [mapGet_mapInsert_ne _ _ _ _ hk]
    exact h

theorem mapGet_foldl_insert_ne {α : Type} (l : List (Nat × α))
    (m : List ((Nat × Nat) × α)) (n : Nat) (k : Nat × Nat)
    (h : ∀ p ∈ l, (n, p.1) ≠ k) :
    mapGet (l.foldl (fun m p => mapInsert m (n, p.1) p.2) m) k = mapGet m k := by
  induction l generalizing m with
  | nil => rfl
  | cons p tl ih =>
    simp only [List.foldl_cons]
    rw [ih _ (fun q hq => h q (List.mem_cons_of_mem _ hq)),
      mapGet_mapInsert_ne _ _ _ _ (Ne.symm (h p (List.mem_cons_self _ _)))]

theorem mapGet_foldl_insert_isSome {α : Type} (l : List (Nat × α))
    (m : List ((Nat × Nat) × α)) (n : Nat) (k : Nat × Nat)
    (h : (mapGet m k).isSome) :
    (mapGet (l.foldl (fun m p => mapInsert m (n, p.1) p.2) m) k).isSome := by
  induction l generalizing m with
  | nil => exact h
  | cons p tl ih => exact ih _ (mapGet_mapInsert_isSome _ _ _ _ h)

theorem mapGet_foldl_insert_mem {α : Type} (l : List (Nat × α))
    (m : List ((Nat × Nat) × α)) (n j : Nat) (v : α) (h : (j, v) ∈ l) :
    (mapGet (l.foldl (fun m p => mapInsert m (n, p.1) p.2) m) (n, j)).isSome := by
  induction l generalizing m with
  | nil => cases h
  | cons p tl ih =>
    rcases List.mem_cons.mp h with h1 | h1
    · subst h1
      simp only [List.foldl_cons]
      exact mapGet_foldl_insert_isSome tl _ n (n, j)
        (by rw [mapGet_mapInsert_self]; rfl)
    · exact ih _ h1

theorem mapGet_foldl_insert_nodup {α : Type} (l : List (Nat × α))
    (m : List ((Nat × Nat) × α)) (n j : Nat) (v : α)
    (hmem : (j, v) ∈ l) (hnd : (l.map Prod.fst).Nodup) :
    mapGet (l.foldl (fun m p => mapInsert m (n, p.1) p.2) m) (n, j) = some v := by
  induction l generalizing m with
  | nil => cases hmem
  | cons p tl ih =>
    simp only [List.map_cons, List.nodup_cons] at hnd
    simp only [List.foldl_cons]
    rcases List.mem_cons.mp hmem with h1 | h1
    · subst h1
      have hj : ∀ q ∈ tl, (n, q.1) ≠ ((n, j) : Nat × Nat) := by
        intro q hq hne
        have hq1 : q.1 = j := by
          have := congrArg Prod.snd hne
          simpa using this
        have hmm : q.1 ∈ List.map Prod.fst tl := List.mem_map_of_mem Prod.fst hq
        rw [hq1] at hmm
        exact hnd.1 hmm
      rw [mapGet_foldl_insert_ne tl _ n _ hj, mapGet_mapInsert_self]
    · exact ih _ h1 hnd.2

theorem mapGet_foldl_insert_cases {α : Type} (l : List (Nat × α))
    (m : List ((Nat × Nat) × α)) (n : Nat) (k : Nat × Nat) (v : α)
    (h : mapGet (l.foldl (fun m p => mapInsert m (n, p.1) p.2) m) k = some v) :
    (k.1 = n ∧ (k.2, v) ∈ l) ∨ mapGet m k = some v := by
  induction l generalizing m with
  | nil => exact Or.inr h
  | cons p tl ih =>
    simp only [List.foldl_cons] at h
    rcases ih _ h with h1 | h1
    · exact Or.inl ⟨h1.1, List.mem_cons_of_mem _ h1.2⟩
    · by_cases hk : ((n, p.1) : Nat × Nat) = k
      · left
        rw [← hk] at h1
        rw [mapGet_mapInsert_self] at h1
        refine ⟨(congrArg Prod.fst hk.symm : k.1 = n), ?_⟩
        have h2 : k.2 = p.1 := congrArg Prod.snd hk.symm
        have h3 : v = p.2 := (Option.some.inj h1).symm
        rw [h2, h3]
        exact List.mem_cons_self _ _
      · rw [mapGet_mapInsert_ne _ _ _ _ (Ne.symm hk)] at h1
        exact Or.inr h1

/-- Declared outputs written by `note_outputs` are retrievable at the row of
the pushed request. -/
theorem mapGet_note_fold (outs : List OutputKind)
    (m : List ((Nat × Nat) × OutputKind)) (n j : Nat) (k : OutputKind)
    (h : outs.get? j = some k) :
    mapGet (outs.enum.foldl (fun m p => mapInsert m (n, p.1) p.2) m) (n, j) =
      some k :=
  mapGet_foldl_insert_nodup _ _ _ _ _ (List.mem_enum_iff_get?.mpr h)
    (by rw [List.enum_map_fst]; exact List.nodup_range _)

theorem get?_some_lt {α : Type} {l : List α} {n : Nat} {a : α}
    (h : l.get? n = some a) : n < l.length := by
  by_contra hge
  rw [List.get?_eq_none.mpr (Nat.le_of_not_lt hge)] at h
  exact Option.noConfusion h

/-! Lemmas about `fill` and `complete`. -/

theorem fill_outputs_eq (r : Req) (o : Nat → Nat → Option Output) :
    (r.fill o).outputs = r.outputs := rfl

theorem fill_backRef_inv (r : Req) (o : Nat → Nat → Option Output)
    (fk' : Field × OutputKind) (hmem : fk' ∈ (r.fill o).fields) (s j : Nat)
    (hbr : fk'.1 = Field.backRef s j) :
    fk' ∈ r.fields ∧ o s j = none := by
  simp only [Req.fill, List.mem_map] at hmem
  obtain ⟨fk, hfk, heq⟩ := hmem
  cases hf : fk.1 with
  | scalar v =>
    simp only [hf] at heq
    rw [← heq] at hbr
    rw [hf] at hbr
    exact absurd hbr (by simp)
  | backRef s0 j0 =>
    simp only [hf] at heq
    cases ho : o s0 j0 with
    | some v =>
      simp only [ho] at heq
      rw [← heq] at hbr
      exact absurd hbr (by simp)
    | none =>
      simp only [ho] at heq
      subst heq
      rw [hf] at hbr
      have hinj := Field.backRef.inj hbr
      rw [← hinj.1, ← hinj.2]
      exact ⟨hfk, ho⟩

theorem fill_resolves (r : Req) (o : Nat → Nat → Option Output)
    (h : ∀ fk ∈ r.fields, ∀ s j, fk.1 = Field.backRef s j → ∃ v, o s j = some v) :
    NoBackRefs (r.fill o) := by
  intro fk' hmem s j hbr
  obtain ⟨hfk, hnone⟩ := fill_backRef_inv r o fk' hmem s j hbr
  obtain ⟨v, hv⟩ := h fk' hfk s j hbr
  rw [hv] at hnone
  exact Option.noConfusion hnone

theorem fill_fields_get? (r : Req) (o : Nat → Nat → Option Output) (p : Nat) :
    (r.fill o).fields.get? p = (r.fields.get? p).map (fun fk =>
      match fk.1 with
      | Field.scalar _ => fk
      | Field.backRef s j =>
        match o s j with
        | some v => (Field.scalar v, fk.2)
        | none => fk) := by
  simp only [Req.fill]
  rw [List.get?_map]

theorem completeFields_isSome (l : List (Field × OutputKind))
    (h : ∀ fk ∈ l, ∀ s j, fk.1 ≠ Field.backRef s j) :
    ∃ vs, completeFields l = some vs := by
  induction l with
  | nil => exact ⟨[], rfl⟩
  | cons fk tl ih =>
    obtain ⟨vs, hvs⟩ := ih fun q hq => h q (List.mem_cons_of_mem _ hq)
    have hv : ∃ v, fieldValue fk = some v := by
      cases hfk : fk.1 with
      | scalar v => exact ⟨v, by simp [fieldValue, hfk]⟩
      | backRef s j => exact absurd hfk (h fk (List.mem_cons_self _ _) s j)
    obtain ⟨v, hv⟩ := hv
    exact ⟨v :: vs, by simp [completeFields, hv, hvs]⟩

theorem complete_of_noBackRefs (r : Req) (h : NoBackRefs r) :
    ∃ c, r.complete = some c := by
  obtain ⟨vs, hvs⟩ := completeFields_isSome r.fields h
  exact ⟨⟨vs⟩, by simp [Req.complete, hvs]⟩

/-! The push-time back-reference checker. -/

theorem check_outputs_builder_iff (r : Req)
    (m : List ((Nat × Nat) × OutputKind)) :
    (r.check_outputs fun s j kind =>
      match mapGet m (s, j) with
      | some k => k = kind
      | none => false) = true ↔
    ∀ fk ∈ r.fields, ∀ s j, fk.1 = Field.backRef s j →
      mapGet m (s, j) = some fk.2 := by
  unfold Req.check_outputs
  rw [List.all_eq_true]
  constructor
  · intro h fk hmem s j hbr
    have hx := h fk hmem
    simp only [hbr] at hx
    cases hm : mapGet m (s, j) with
    | none => simp [hm] at hx
    | some k =>
      simp only [hm, decide_eq_true_eq] at hx
      rw [hx]
  · intro h fk hmem
    cases hfk : fk.1 with
    | scalar v => simp [hfk]
    | backRef s j => simp [hfk, h fk hmem s j hfk]

/-! The propagation pass. -/

theorem fillFrom_get? (reqs : List Req) (n : Nat)
    (outs : List ((Nat × Nat) × Output)) (i : Nat) :
    (fillFrom reqs n outs).get? i = (reqs.get? i).map (fun r =>
      if n ≤ i then r.fill (fun s j => mapGet outs (s, j)) else r) := by
  simp only [fillFrom]
  rw [List.get?_map, List.get?_enum]
  cases reqs.get? i <;> simp

theorem fillFrom_length (reqs : List Req) (n : Nat)
    (outs : List ((Nat × Nat) × Output)) :
    (fillFrom reqs n outs).length = reqs.length := by
  simp [fillFrom]

/-! `push`: destructors for the success and failure cases. -/

theorem push_ok_destruct {b b' : RequestBuilder} {r : Req}
    (h : RequestBuilder.push b r = (b', Except.ok ())) :
    (∀ fk ∈ r.fields, ∀ s j, fk.1 = Field.backRef s j →
      mapGet b.output_kinds (s, j) = some fk.2) ∧
    b' = { output_kinds := r.note_outputs.foldl
             (fun m p => mapInsert m (b.requests.length, p.1) p.2)
             b.output_kinds,
           requests := b.requests ++ [r] } := by
  unfold RequestBuilder.push at h
  split at h
  · rename_i hchk
    refine ⟨(check_outputs_builder_iff r b.output_kinds).mp hchk, ?_⟩
    exact ((Prod.mk.injEq _ _ _ _).mp h).1.symm
  · simp at h

theorem push_fails_of_bad_ref {b : RequestBuilder} {r : Req}
    (hbad : ∃ fk ∈ r.fields, ∃ s j, fk.1 = Field.backRef s j ∧
      mapGet b.output_kinds (s, j) ≠ some fk.2) :
    RequestBuilder.push b r = (b, Except.error NoSuchOutput.noSuchOutput) := by
  have hc : ¬((r.check_outputs fun s j kind =>
      match mapGet b.output_kinds (s, j) with
      | some k => k = kind
      | none => false) = true) := by
    intro hchk
    obtain ⟨fk, hmem, s, j, hbr, hne⟩ := hbad
    exact hne ((check_outputs_builder_iff r b.output_kinds).mp hchk fk hmem s j hbr)
  unfold RequestBuilder.push
  rw [if_neg hc]

/-! The builder invariant and its preservation. -/

theorem builderInv_empty : BuilderInv RequestBuilder.empty := by
  refine ⟨?_, ?_, ?_⟩
  · intro s j k h
    simp [RequestBuilder.empty, mapGet] at h
  · intro s rq h
    simp [RequestBuilder.empty] at h
  · intro i rq h
    simp [RequestBuilder.empty] at h

theorem builderInv_push {b b' : RequestBuilder} {r : Req}
    (hinv : BuilderInv b) (h : RequestBuilder.push b r = (b', Except.ok ())) :
    BuilderInv b' := by
  obtain ⟨hchk, hb'⟩ := push_ok_destruct h
  obtain ⟨inv1, inv2, inv3⟩ := hinv
  subst hb'
  refine ⟨?_, ?_, ?_⟩
  · intro s j k hget
    rcases mapGet_foldl_insert_cases _ _ _ _ _ hget with hcase | hcase
    · obtain ⟨hs, hmem⟩ := hcase
      have hs2 : s = b.requests.length := hs
      have hmem2 : ((j, k) : Nat × OutputKind) ∈ r.outputs.enum := hmem
      have hget2 : r.outputs.get? j = some k := List.mem_enum_iff_get?.mp hmem2
      refine ⟨r, ?_, hget2⟩
      rw [hs2]
      exact List.get?_concat_length _ _
    · obtain ⟨rq, hrq, hout⟩ := inv1 s j k hcase
      exact ⟨rq, by rw [List.get?_append (get?_some_lt hrq)]; exact hrq, hout⟩
  · intro s rq hrq j k hout
    have hs : s < b.requests.length + 1 := by simpa using get?_some_lt hrq
    rcases Nat.lt_succ_iff_lt_or_eq.mp hs with hlt | heq
    · rw [List.get?_append hlt] at hrq
      rw [mapGet_foldl_insert_ne]
      · exact inv2 s rq hrq j k hout
      · intro p hp hne
        have : b.requests.length = s := congrArg Prod.fst hne
        omega
    · subst heq
      rw [List.get?_concat_length] at hrq
      have hrqr : rq = r := (Option.some.inj hrq).symm
      rw [hrqr] at hout
      exact mapGet_note_fold r.outputs b.output_kinds _ j k hout
  · intro i rq hrq fk hmem s j hbr
    have hi : i < b.requests.length + 1 := by simpa using get?_some_lt hrq
    rcases Nat.lt_succ_iff_lt_or_eq.mp hi with hlt | heq
    · rw [List.get?_append hlt] at hrq
      obtain ⟨hsi, rq2, hrq2, hout2⟩ := inv3 i rq hrq fk hmem s j hbr
      exact ⟨hsi, rq2,
        by rw [List.get?_append (get?_some_lt hrq2)]; exact hrq2, hout2⟩
    · subst heq
      rw [List.get?_concat_length] at hrq
      have hrqr : rq = r := (Option.some.inj hrq).symm
      subst hrqr
      have hval := hchk fk hmem s j hbr
      obtain ⟨rq2, hrq2, hout2⟩ := inv1 s j fk.2 hval
      exact ⟨get?_some_lt hrq2, rq2,
        by rw [List.get?_append (get?_some_lt hrq2)]; exact hrq2, hout2⟩

theorem builderReach_inv {b : RequestBuilder} (h : BuilderReach b) :
    BuilderInv b := by
  induction h with
  | empty => exact builderInv_empty
  | @push b0 b1 r0 hb hpush ih => exact builderInv_push ih hpush

/-! `next_complete`: destructors. -/

theorem outputs_ite_fill (c : Prop) [Decidable c] (rq : Req)
    (o : Nat → Nat → Option Output) :
    (if c then rq.fill o else rq).outputs = rq.outputs := by
  split <;> rfl

theorem next_complete_done_iff (rs : Requests) :
    rs.next_complete = NextComplete.done ↔ rs.is_complete = true := by
  constructor
  · intro h
    unfold Requests.next_complete at h
    split at h
    · assumption
    · split at h
      · exact absurd h (by simp)
      · split at h
        · exact absurd h (by simp)
        · exact absurd h (by simp)
  · intro h
    unfold Requests.next_complete
    rw [if_pos h]

theorem next_complete_next_destruct {rs : Requests} {c : CompleteReq}
    (h : rs.next_complete = NextComplete.next c) :
    rs.is_complete = false ∧
    ∃ req, rs.requests.get? rs.answered = some req ∧ req.complete = some c := by
  unfold Requests.next_complete at h
  split at h
  · exact absurd h (by simp)
  · rename_i hic
    refine ⟨by simpa using hic, ?_⟩
    split at h
    · exact absurd h (by simp)
    · rename_i req hget
      split at h
      · rename_i c0 hcomp
        exact ⟨req, hget, by rw [hcomp, NextComplete.next.inj h]⟩
      · exact absurd h (by simp)

/-! `supply_response`: destructors and direct evaluations. -/

theorem supply_ok_destruct {Env E X : Type}
    {check : Req → CompleteReq → Env → Response → Except E X}
    {rs rs' : Requests} {env : Env} {resp : Response} {x : X}
    (h : Requests.supply_response check rs env resp = some (rs', Except.ok x)) :
    ∃ req completed,
      rs.answered < rs.requests.length ∧
      rs.requests.get? rs.answered = some req ∧
      rs.next_complete = NextComplete.next completed ∧
      req.complete = some completed ∧
      check req completed env resp = Except.ok x ∧
      rs' = { outputs := resp.outs.foldl
                (fun m p => mapInsert m (rs.answered, p.1) p.2) rs.outputs,
              requests := fillFrom rs.requests (rs.answered + 1)
                (resp.outs.foldl
                  (fun m p => mapInsert m (rs.answered, p.1) p.2) rs.outputs),
              answered := rs.answered + 1 } := by
  simp only [Requests.supply_response] at h
  split at h
  · simp at h
  · split at h
    · exact absurd h (by simp)
    · exact absurd h (by simp)
    · rename_i completed heq
      split at h
      · exact absurd h (by simp)
      · rename_i req hget
        split at h
        · simp at h
        · rename_i extracted hcheck
          simp only [Option.some.injEq, Prod.mk.injEq, Except.ok.injEq] at h
          obtain ⟨hrs, hx⟩ := h
          obtain ⟨-, req2, hget2, hcomp2⟩ := next_complete_next_destruct heq
          have hreq : req2 = req := by
            rw [hget] at hget2
            exact (Option.some.inj hget2).symm
          rw [hreq] at hcomp2
          refine ⟨req, completed, get?_some_lt hget, hget, heq, hcomp2, ?_, hrs.symm⟩
          rw [hcheck, hx]

theorem supply_unexpected {Env E X : Type}
    (check : Req → CompleteReq → Env → Response → Except E X)
    (rs : Requests) (env : Env) (resp : Response)
    (h : rs.answered = rs.requests.length) :
    Requests.supply_response check rs env resp =
      some (rs, Except.error ResponseError.unexpected) := by
  simp only [Requests.supply_response]
  rw [if_pos h]

theorem supply_validity {Env E X : Type}
    (check : Req → CompleteReq → Env → Response → Except E X)
    (rs : Requests) (env : Env) (resp : Response) (req : Req)
    (c : CompleteReq) (e : E)
    (hnc : rs.next_complete = NextComplete.next c)
    (hget : rs.requests.get? rs.answered = some req)
    (hcheck : check req c env resp = Except.error e) :
    Requests.supply_response check rs env resp =
      some (rs, Except.error (ResponseError.validity e)) := by
  have hne : ¬(rs.answered = rs.requests.length) := by
    have hic := (next_complete_next_destruct hnc).1
    simp [Requests.is_complete] at hic
    exact hic
  simp only [Requests.supply_response]
  rw [if_neg hne, hnc]
  simp only [hget, hcheck]

theorem supply_error_destruct {Env E X : Type}
    {check : Req → CompleteReq → Env → Response → Except E X}
    {rs rs' : Requests} {env : Env} {resp : Response} {e : ResponseError E}
    (h : Requests.supply_response check rs env resp =
      some (rs', Except.error e)) :
    rs' = rs ∧
    ((rs.answered = rs.requests.length ∧ e = ResponseError.unexpected) ∨
     (∃ req completed e0, e = ResponseError.validity e0 ∧
       rs.answered ≠ rs.requests.length ∧
       rs.next_complete = NextComplete.next completed ∧
       rs.requests.get? rs.answered = some req ∧
       check req completed env resp = Except.error e0)) := by
  simp only [Requests.supply_response] at h
  split at h
  · rename_i hlen
    simp only [Option.some.injEq, Prod.mk.injEq] at h
    obtain ⟨hrs, he⟩ := h
    exact ⟨hrs.symm, Or.inl ⟨hlen, (Except.error.inj he).symm⟩⟩
  · rename_i hlen
    split at h
    · exact absurd h (by simp)
    · exact absurd h (by simp)
    · rename_i completed heq
      split at h
      · exact absurd h (by simp)
      · rename_i req hget
        split at h
        · rename_i e0 hcheck
          simp only [Option.some.injEq, Prod.mk.injEq] at h
          obtain ⟨hrs, he⟩ := h
          refine ⟨hrs.symm, Or.inr ⟨req, completed, e0, (Except.error.inj he).symm,
            hlen, heq, hget, hcheck⟩⟩
        · simp at h

/-! The `Requests` invariant: establishment and preservation. -/

theorem reqInv_build {b : RequestBuilder} (hinv : BuilderInv b) :
    ReqInv b.build := by
  obtain ⟨inv1, inv2, inv3⟩ := hinv
  refine ⟨Nat.zero_le _, ?_, ?_, ?_⟩
  · intro i rq hrq fk hmem s j hbr
    obtain ⟨hsi, rq2, hrq2, hout2⟩ := inv3 i rq hrq fk hmem s j hbr
    exact ⟨hsi, rq2, hrq2, get?_some_lt hout2⟩
  · intro s hs
    exact absurd hs (Nat.not_lt_zero _)
  · intro i hi rq hrq fk hmem s j hbr
    have hi0 : i = 0 := Nat.le_zero.mp hi
    subst hi0
    obtain ⟨hsi, -⟩ := inv3 0 rq hrq fk hmem s j hbr
    exact absurd hsi (Nat.not_lt_zero _)

theorem reqInv_next_complete {rs : Requests} (hinv : ReqInv rs)
    (hnc : rs.is_complete = false) :
    ∃ req c, rs.requests.get? rs.answered = some req ∧ req.complete = some c ∧
      rs.next_complete = NextComplete.next c := by
  obtain ⟨ha, hb, hc, hd⟩ := hinv
  have hne : ¬(rs.answered = rs.requests.length) := by
    simpa [Requests.is_complete] using hnc
  have hlt : rs.answered < rs.requests.length := by omega
  obtain ⟨req, hreq⟩ : ∃ req, rs.requests.get? rs.answered = some req := by
    cases hg : rs.requests.get? rs.answered with
    | none =>
      have := List.get?_eq_none.mp hg
      omega
    | some req => exact ⟨req, rfl⟩
  have hnb : NoBackRefs req := hd rs.answered (Nat.le_refl _) req hreq
  obtain ⟨c, hcmp⟩ := complete_of_noBackRefs req hnb
  refine ⟨req, c, hreq, hcmp, ?_⟩
  unfold Requests.next_complete
  rw [if_neg (by simp [hnc]), hreq]
  simp only [hcmp]

theorem reqInv_step {Env E X : Type}
    {check : Req → CompleteReq → Env → Response → Except E X}
    (hcov : RespOutsCover check)
    {rs rs' : Requests} {env : Env} {resp : Response} {x : X}
    (hinv : ReqInv rs)
    (h : Requests.supply_response check rs env resp = some (rs', Except.ok x)) :
    ReqInv rs' := by
  obtain ⟨req, completed, hlt, hget, hnc, hcomp, hcheck, hrs'⟩ :=
    supply_ok_destruct h
  obtain ⟨ha, hb, hc, hd⟩ := hinv
  set n := rs.answered with hn
  set outs := resp.outs.foldl (fun m p => mapInsert m (n, p.1) p.2) rs.outputs
    with houts
  have h1 : rs'.outputs = outs := by rw [hrs']
  have h2 : rs'.requests = fillFrom rs.requests (n + 1) outs := by rw [hrs']
  have h3 : rs'.answered = n + 1 := by rw [hrs']
  have hcNew : ∀ s, s < n + 1 → ∀ rq2, rs.requests.get? s = some rq2 →
      ∀ j, j < rq2.outputs.length → ∃ v, mapGet outs (s, j) = some v := by
    intro s hs rq2 hrq2 j hj
    rcases Nat.lt_succ_iff_lt_or_eq.mp hs with hlt2 | heq2
    · obtain ⟨v, hv⟩ := hc s hlt2 rq2 hrq2 j hj
      have hms : (mapGet outs (s, j)).isSome :=
        mapGet_foldl_insert_isSome _ _ _ _ (by rw [hv]; rfl)
      exact Option.isSome_iff_exists.mp hms
    · rw [heq2] at hrq2 ⊢
      have hrq2r : rq2 = req := by
        rw [hget] at hrq2
        exact (Option.some.inj hrq2).symm
      rw [hrq2r] at hj
      obtain ⟨v, hv⟩ := hcov req completed env resp x hcheck j hj
      have hms : (mapGet outs (n, j)).isSome :=
        mapGet_foldl_insert_mem _ _ _ _ _ hv
      exact Option.isSome_iff_exists.mp hms
  have lift : ∀ s rq2, rs.requests.get? s = some rq2 →
      ∃ rq3, (fillFrom rs.requests (n + 1) outs).get? s = some rq3 ∧
        rq3.outputs = rq2.outputs := by
    intro s rq2 hrq2
    refine ⟨if n + 1 ≤ s then rq2.fill (fun s j => mapGet outs (s, j)) else rq2,
      ?_, outputs_ite_fill _ _ _⟩
    rw [fillFrom_get?, hrq2]
    rfl
  unfold ReqInv
  rw [h1, h2, h3]
  refine ⟨?_, ?_, ?_, ?_⟩
  · rw [fillFrom_length]
    omega
  · intro i rq' hrq' fk' hmem' s j hbr'
    rw [fillFrom_get?] at hrq'
    cases hgi : rs.requests.get? i with
    | none => rw [hgi] at hrq'; exact absurd hrq' (by simp)
    | some rq =>
      rw [hgi] at hrq'
      have hrq'2 : rq' = if n + 1 ≤ i
          then rq.fill (fun s j => mapGet outs (s, j)) else rq :=
        (Option.some.inj hrq').symm
      have hfk : fk' ∈ rq.fields := by
        by_cases hi : n + 1 ≤ i
        · rw [if_pos hi] at hrq'2
          subst hrq'2
          exact (fill_backRef_inv _ _ _ hmem' s j hbr').1
        · rw [if_neg hi] at hrq'2
          subst hrq'2
          exact hmem'
      obtain ⟨hsi, rq2, hrq2, hout2⟩ := hb i rq hgi fk' hfk s j hbr'
      obtain ⟨rq3, hrq3, hout3⟩ := lift s rq2 hrq2
      exact ⟨hsi, rq3, hrq3, by rw [hout3]; exact hout2⟩
  · intro s hs rq' hrq' j hj
    rw [fillFrom_get?] at hrq'
    cases hgi : rs.requests.get? s with
    | none => rw [hgi] at hrq'; exact absurd hrq' (by simp)
    | some rq =>
      rw [hgi] at hrq'
      have hrq'2 : rq' = if n + 1 ≤ s
          then rq.fill (fun s j => mapGet outs (s, j)) else rq :=
        (Option.some.inj hrq').symm
      have hout : rq'.outputs = rq.outputs := by
        rw [hrq'2]
        exact outputs_ite_fill _ _ _
      rw [hout] at hj
      exact hcNew s hs rq hgi j hj
  · intro i hi rq' hrq'
    rw [fillFrom_get?] at hrq'
    cases hgi : rs.requests.get? i with
    | none => rw [hgi] at hrq'; exact absurd hrq' (by simp)
    | some rq =>
      rw [hgi] at hrq'
      have hrq'2 : rq' = if n + 1 ≤ i
          then rq.fill (fun s j => mapGet outs (s, j)) else rq :=
        (Option.some.inj hrq').symm
      rcases Nat.lt_succ_iff_lt_or_eq.mp (Nat.lt_succ_of_le hi) with hile | hieq
      · have hni : ¬(n + 1 ≤ i) := by omega
        rw [if_neg hni] at hrq'2
        rw [hrq'2]
        exact hd i (by omega) rq hgi
      · subst hieq
        rw [if_pos (Nat.le_refl _)] at hrq'2
        subst hrq'2
        apply fill_resolves
        intro fk hmem s j hbr
        obtain ⟨hsi, rq2, hrq2, hout2⟩ := hb (n + 1) rq hgi fk hmem s j hbr
        exact hcNew s hsi rq2 hrq2 j hout2

theorem reach_inv {Env E X : Type}
    {check : Req → CompleteReq → Env → Response → Except E X}
    (hcov : RespOutsCover check) {rs : Requests}
    (h : ReqsReach check rs) : ReqInv rs := by
  induction h with
  | build hb => exact reqInv_build (builderReach_inv hb)
  | @step rs0 rs1 env0 resp0 x0 hreach hsup ih => exact reqInv_step hcov ih hsup

theorem supply_ok_construct {Env E X : Type}
    (check : Req → CompleteReq → Env → Response → Except E X)
    (rs : Requests) (env : Env) (resp : Response) (req : Req)
    (c : CompleteReq) (x : X)
    (hnc : rs.next_complete = NextComplete.next c)
    (hget : rs.requests.get? rs.answered = some req)
    (hcheck : check req c env resp = Except.ok x) :
    Requests.supply_response check rs env resp =
      some ({ outputs := resp.outs.foldl
                (fun m p => mapInsert m (rs.answered, p.1) p.2) rs.outputs,
              requests := fillFrom rs.requests (rs.answered + 1)
                (resp.outs.foldl
                  (fun m p => mapInsert m (rs.answered, p.1) p.2) rs.outputs),
              answered := rs.answered + 1 }, Except.ok x) := by
  have hne : ¬(rs.answered = rs.requests.length) := by
    have hic := (next_complete_next_destruct hnc).1
    simpa [Requests.is_complete] using hic
  simp only [Requests.supply_response]
  rw [if_neg hne, hnc]
  simp only [hget, hcheck]

/-! One-step evaluations of `respond_to_all` for each stopping condition and
for the recursive step. -/

theorem respond_to_all_done {E : Type}
    (check : Req → CompleteReq → Unit → Response → Except E Unit)
    (responder : CompleteReq → Option Response) (rs : Requests)
    (h : rs.next_complete = NextComplete.done) :
    Requests.respond_to_all check responder rs = some [] := by
  unfold Requests.respond_to_all
  split
  · rfl
  · rename_i heq
    rw [h] at heq
    exact NextComplete.noConfusion heq
  · rename_i c heq
    rw [h] at heq
    exact NextComplete.noConfusion heq

theorem respond_to_all_no_response {E : Type}
    (check : Req → CompleteReq → Unit → Response → Except E Unit)
    (responder : CompleteReq → Option Response) (rs : Requests)
    (c : CompleteReq) (h : rs.next_complete = NextComplete.next c)
    (hr : responder c = none) :
    Requests.respond_to_all check responder rs = some [] := by
  unfold Requests.respond_to_all
  split
  · rfl
  · rename_i heq
    rw [h] at heq
    exact NextComplete.noConfusion heq
  · rename_i c0 heq
    rw [h] at heq
    cases NextComplete.next.inj heq
    rw [hr]

theorem respond_to_all_rejected {E : Type}
    (check : Req → CompleteReq → Unit → Response → Except E Unit)
    (responder : CompleteReq → Option Response) (rs rs2 : Requests)
    (c : CompleteReq) (resp : Response) (e : ResponseError E)
    (h : rs.next_complete = NextComplete.next c)
    (hr : responder c = some resp)
    (hs : Requests.supply_response check rs () resp =
      some (rs2, Except.error e)) :
    Requests.respond_to_all check responder rs = some [] := by
  unfold Requests.respond_to_all
  split
  · rfl
  · rename_i heq
    rw [h] at heq
    exact NextComplete.noConfusion heq
  · rename_i c0 heq
    rw [h] at heq
    cases NextComplete.next.inj heq
    rw [hr]
    dsimp only
    split
    · rename_i hsr
      rw [hs] at hsr
      exact Option.noConfusion hsr
    · rfl
    · rename_i rs3 a hsr
      rw [hs] at hsr
      simp at hsr

theorem respond_to_all_step {E : Type}
    (check : Req → CompleteReq → Unit → Response → Except E Unit)
    (responder : CompleteReq → Option Response) (rs rs2 : Requests)
    (c : CompleteReq) (resp : Response)
    (h : rs.next_complete = NextComplete.next c)
    (hr : responder c = some resp)
    (hs : Requests.supply_response check rs () resp =
      some (rs2, Except.ok ())) :
    Requests.respond_to_all check responder rs =
      match Requests.respond_to_all check responder rs2 with
      | none => none
      | some rest => some (resp :: rest) := by
  conv_lhs => rw [Requests.respond_to_all.eq_def]
  split
  · rename_i heq
    rw [h] at heq
    exact NextComplete.noConfusion heq
  · rename_i heq
    rw [h] at heq
    exact NextComplete.noConfusion heq
  · rename_i c0 heq
    rw [h] at heq
    cases NextComplete.next.inj heq
    rw [hr]
    dsimp only
    split
    · rename_i hsr
      rw [hs] at hsr
      exact Option.noConfusion hsr
    · rename_i rs3 a hsr
      rw [hs] at hsr
      simp at hsr
    · rename_i rs3 a hsr
      rw [hs] at hsr
      simp only [Option.some.injEq, Prod.mk.injEq] at hsr
      rw [← hsr.1]

/-! Demo facts shared by the witnesses. -/

theorem demoCheck_covers : RespOutsCover demoCheck := by
  intro req compl env resp x hok j hj
  unfold demoCheck at hok
  split at hok
  · rename_i hcv
    unfold coversB at hcv
    have hall := List.all_eq_true.mp hcv j (List.mem_range.mpr hj)
    obtain ⟨p, hp, hpj⟩ := List.any_eq_true.mp hall
    have hpj2 : p.1 = j := by simpa using hpj
    refine ⟨p.2, ?_⟩
    rw [← hpj2, Prod.mk.eta]
    exact hp
  · exact absurd hok (by simp)

theorem demoReach0 : ReqsReach demoCheck demoRs0 :=
  ReqsReach.build (BuilderReach.push (BuilderReach.push (BuilderReach.push
    BuilderReach.empty
    (show RequestBuilder.push RequestBuilder.empty reqA =
      (demoB1, Except.ok ()) from rfl))
    (show RequestBuilder.push demoB1 reqB = (demoB2, Except.ok ()) from rfl))
    (show RequestBuilder.push demoB2 reqB = (demoB3, Except.ok ()) from rfl))

theorem demoReach1 : ReqsReach demoCheck demoRs1 :=
  ReqsReach.step demoReach0
    (show Requests.supply_response demoCheck demoRs0 () demoResp =
      some (demoRs1, Except.ok ()) from rfl)

/-! The claims. -/

/-- Claim C1: after every successful `supply_response` call, the propagation
pass has run: every request at index greater than `answered` (the cursor value
after advancing) equals its pre-call value run through `fill` against the
updated resolved-output map, so each of its still-unresolved back-reference
fields whose source output is in the map is now the literal value from the
map, and fields whose source output is not yet in the map are left
untouched. -/
theorem c1_supply_response_propagates {Env E X : Type}
    {check : Req → CompleteReq → Env → Response → Except E X}
    {rs rs' : Requests} {env : Env} {resp : Response} {x : X}
    (hok : Requests.supply_response check rs env resp = some (rs', Except.ok x))
    {i : Nat} (hi : rs'.answered < i) {r : Req}
    (hr : rs.requests.get? i = some r) :
    rs'.requests.get? i =
      some (r.fill fun s j => mapGet rs'.outputs (s, j)) ∧
    ∀ p fk, r.fields.get? p = some fk →
      (r.fill fun s j => mapGet rs'.outputs (s, j)).fields.get? p =
        some (match fk.1 with
          | Field.scalar _ => fk
          | Field.backRef s j =>
            match mapGet rs'.outputs (s, j) with
            | some v => (Field.scalar v, fk.2)
            | none => fk) := by
  obtain ⟨req, completed, hlt, hget, hnc, hcomp, hcheck, hrs'⟩ :=
    supply_ok_destruct hok
  have h3 : rs'.answered = rs.answered + 1 := by rw [hrs']
  have h2 : rs'.requests = fillFrom rs.requests (rs.answered + 1) rs'.outputs := by
    rw [hrs']
  constructor
  · rw [h2, fillFrom_get?, hr]
    rw [h3] at hi
    simp only [Option.map_some']
    rw [if_pos (Nat.le_of_lt hi)]
  · intro p fk hp
    rw [fill_fields_get?, hp]
    rfl

/-- Witness for C1 at the demo batch: after answering request `0`, the request
at index `2` (beyond the new cursor `1`) has been filled from the
resolved-output map. -/
theorem c1_witness : demoRs1.requests.get? 2 =
    some (reqB.fill fun s j => mapGet demoRs1.outputs (s, j)) :=
  (c1_supply_response_propagates
    (show Requests.supply_response demoCheck demoRs0 () demoResp =
      some (demoRs1, Except.ok ()) from rfl)
    (show demoRs1.answered < 2 by decide)
    (show demoRs0.requests.get? 2 = some reqB from rfl)).1

/-- Claim C2: if any back-reference `(s, j)` of the pushed request is absent
from the accumulated output-kind map, or present with a kind different from
the kind the field requires, then `push` returns `NoSuchOutput` and the
builder is left unmodified: no request is appended and no output kinds are
registered. -/
theorem c2_push_no_such_output {b : RequestBuilder} {r : Req}
    (hbad : ∃ fk ∈ r.fields, ∃ s j, fk.1 = Field.backRef s j ∧
      (mapGet b.output_kinds (s, j) = none ∨
       ∃ k, mapGet b.output_kinds (s, j) = some k ∧ k ≠ fk.2)) :
    RequestBuilder.push b r = (b, Except.error NoSuchOutput.noSuchOutput) := by
  apply push_fails_of_bad_ref
  obtain ⟨fk, hmem, s, j, hbr, hcase⟩ := hbad
  refine ⟨fk, hmem, s, j, hbr, ?_⟩
  rcases hcase with hnone | ⟨k, hk, hne⟩
  · rw [hnone]
    exact fun hc => Option.noConfusion hc
  · rw [hk]
    intro hc
    exact hne (Option.some.inj hc)

/-- Witness for C2: pushing a request that back-references the undeclared
output `(5, 0)` fails and returns the builder unchanged. -/
theorem c2_witness : RequestBuilder.push demoB2 demoBadReq =
    (demoB2, Except.error NoSuchOutput.noSuchOutput) :=
  c2_push_no_such_output
    ⟨(Field.backRef 5 0, 0), by decide, 5, 0, rfl, Or.inl (by decide)⟩

/-- Claim C3: when `push` succeeds on a reachable builder, the request is
appended at index `new_index =` the request count before the append, its
declared outputs are registered in the output-kind map under
`(new_index, output_index)`, and every accepted back-reference points at a
strictly earlier index. -/
theorem c3_push_registers_outputs {b b' : RequestBuilder} {r : Req}
    (hreach : BuilderReach b)
    (h : RequestBuilder.push b r = (b', Except.ok ())) :
    b'.requests = b.requests ++ [r] ∧
    b'.requests.get? b.requests.length = some r ∧
    (∀ j k, r.outputs.get? j = some k →
      mapGet b'.output_kinds (b.requests.length, j) = some k) ∧
    (∀ fk ∈ r.fields, ∀ s j, fk.1 = Field.backRef s j →
      s < b.requests.length) := by
  obtain ⟨hchk, hb'⟩ := push_ok_destruct h
  obtain ⟨inv1, -, -⟩ := builderReach_inv hreach
  subst hb'
  refine ⟨rfl, List.get?_concat_length _ _, ?_, ?_⟩
  · intro j k hjk
    exact mapGet_note_fold r.outputs b.output_kinds _ j k hjk
  · intro fk hmem s j hbr
    obtain ⟨rq2, hrq2, -⟩ := inv1 s j fk.2 (hchk fk hmem s j hbr)
    exact get?_some_lt hrq2

/-- Witness for C3: pushing `reqB` onto the one-request builder appends it at
index `1`, and its back-reference points at index `0 < 1`. -/
theorem c3_witness :
    demoB2.requests = demoB1.requests ++ [reqB] ∧
    demoB2.requests.get? demoB1.requests.length = some reqB ∧
    (∀ j k, reqB.outputs.get? j = some k →
      mapGet demoB2.output_kinds (demoB1.requests.length, j) = some k) ∧
    (∀ fk ∈ reqB.fields, ∀ s j, fk.1 = Field.backRef s j →
      s < demoB1.requests.length) :=
  c3_push_registers_outputs
    (BuilderReach.push BuilderReach.empty
      (show RequestBuilder.push RequestBuilder.empty reqA =
        (demoB1, Except.ok ()) from rfl))
    (show RequestBuilder.push demoB1 reqB = (demoB2, Except.ok ()) from rfl)

/-- Claim C4: on every batch built from a builder whose pushes all succeeded
and evolved only by successful `supply_response` calls (with responses whose
accepted outputs cover the declared outputs, per the `CheckedRequest`
contract), the conversion in `next_complete` never hits its failure branch:
when the batch is not complete, the request at the cursor converts to its
fully-resolved form. -/
theorem c4_next_complete_infallible {Env E X : Type}
    {check : Req → CompleteReq → Env → Response → Except E X}
    (hcov : RespOutsCover check) {rs : Requests}
    (hreach : ReqsReach check rs) :
    rs.next_complete ≠ NextComplete.invariantViolated ∧
    (rs.is_complete = false → ∃ req c,
      rs.requests.get? rs.answered = some req ∧ req.complete = some c ∧
      rs.next_complete = NextComplete.next c) := by
  have hinv := reach_inv hcov hreach
  constructor
  · intro hbad
    by_cases hic : rs.is_complete = true
    · rw [(next_complete_done_iff rs).mpr hic] at hbad
      exact NextComplete.noConfusion hbad
    · have hic2 : rs.is_complete = false := by simpa using hic
      obtain ⟨req, c, -, -, hnc⟩ := reqInv_next_complete hinv hic2
      rw [hnc] at hbad
      exact NextComplete.noConfusion hbad
  · exact fun hic => reqInv_next_complete hinv hic

/-- Witness for C4 at the demo batch after one answered request. -/
theorem c4_witness : demoRs1.next_complete ≠ NextComplete.invariantViolated :=
  (c4_next_complete_infallible demoCheck_covers demoReach1).1

/-- Claim C5: the cursor is monotone: `num_answered` is `0` immediately after
`build()`, increases by exactly `1` on every successful `supply_response`,
is unchanged by every failed `supply_response`, and is unchanged by
`map_requests` (the only other operation producing a `Requests` value). -/
theorem c5_cursor_monotone {Env E X : Type}
    (check : Req → CompleteReq → Env → Response → Except E X) :
    (∀ b : RequestBuilder, (b.build).num_answered = 0) ∧
    (∀ (rs rs' : Requests) (env : Env) (resp : Response) (x : X),
      Requests.supply_response check rs env resp = some (rs', Except.ok x) →
      rs'.num_answered = rs.num_answered + 1) ∧
    (∀ (rs rs' : Requests) (env : Env) (resp : Response) (e : ResponseError E),
      Requests.supply_response check rs env resp =
        some (rs', Except.error e) →
      rs'.num_answered = rs.num_answered) ∧
    (∀ (rs : Requests) (f : Req → Req),
      (rs.map_requests f).num_answered = rs.num_answered) := by
  refine ⟨fun b => rfl, ?_, ?_, fun rs f => rfl⟩
  · intro rs rs' env resp x h
    obtain ⟨-, -, -, -, -, -, -, hrs'⟩ := supply_ok_destruct h
    rw [hrs']
    rfl
  · intro rs rs' env resp e h
    rw [(supply_error_destruct h).1]

/-- Witness for C5: answering the first demo request advances the cursor from
`0` to `1`. -/
theorem c5_witness : demoRs1.num_answered = demoRs0.num_answered + 1 :=
  (c5_cursor_monotone demoCheck).2.1 demoRs0 demoRs1 () demoResp () rfl

/-- Claim C6: `supply_response` returns `Unexpected` exactly when it is called
with `answered` equal to the request count; when validation of the pending
request's response fails with `e`, it returns `Validity e`; in both error
cases the state — in particular the cursor — is returned unchanged, so the
batch stays positioned at the same pending request. -/
theorem c6_supply_response_errors {Env E X : Type}
    (check : Req → CompleteReq → Env → Response → Except E X) :
    (∀ (rs : Requests) (env : Env) (resp : Response),
      rs.num_answered = rs.requests.length →
      Requests.supply_response check rs env resp =
        some (rs, Except.error ResponseError.unexpected)) ∧
    (∀ (rs rs' : Requests) (env : Env) (resp : Response),
      Requests.supply_response check rs env resp =
        some (rs', Except.error ResponseError.unexpected) →
      rs.num_answered = rs.requests.length ∧ rs' = rs) ∧
    (∀ (rs : Requests) (env : Env) (resp : Response) (req : Req)
       (c : CompleteReq) (e : E),
      rs.next_complete = NextComplete.next c →
      rs.requests.get? rs.answered = some req →
      check req c env resp = Except.error e →
      Requests.supply_response check rs env resp =
        some (rs, Except.error (ResponseError.validity e))) ∧
    (∀ (rs rs' : Requests) (env : Env) (resp : Response) (e0 : E),
      Requests.supply_response check rs env resp =
        some (rs', Except.error (ResponseError.validity e0)) →
      rs' = rs) := by
  refine ⟨?_, ?_, ?_, ?_⟩
  · exact fun rs env resp h => supply_unexpected check rs env resp h
  · intro rs rs' env resp h
    obtain ⟨hrs, hcase⟩ := supply_error_destruct h
    rcases hcase with ⟨hlen, -⟩ | ⟨req, completed, e0, habs, -⟩
    · exact ⟨hlen, hrs⟩
    · exact absurd habs (by simp)
  · exact fun rs env resp req c e h1 h2 h3 =>
      supply_validity check rs env resp req c e h1 h2 h3
  · intro rs rs' env resp e0 h
    exact (supply_error_destruct h).1

/-- Witness for C6: supplying a response to the already-complete empty batch
returns `Unexpected` with the state unchanged. -/
theorem c6_witness :
    Requests.supply_response demoCheck demoRsEmpty () demoResp =
      some (demoRsEmpty, Except.error ResponseError.unexpected) :=
  (c6_supply_response_errors demoCheck).1 demoRsEmpty () demoResp rfl

/-- Claim C7: `is_complete` holds exactly when `num_answered` equals the
request count; `next_complete` yields nothing exactly when the batch is
complete; otherwise (on a reachable batch) it yields the fully-resolved view
of the request at index `answered`. -/
theorem c7_completion {Env E X : Type}
    {check : Req → CompleteReq → Env → Response → Except E X}
    (hcov : RespOutsCover check) {rs : Requests}
    (hreach : ReqsReach check rs) :
    (rs.is_complete = true ↔ rs.num_answered = rs.requests.length) ∧
    (rs.next_complete = NextComplete.done ↔ rs.is_complete = true) ∧
    (rs.is_complete = false →
      ∃ req c, rs.requests.get? rs.answered = some req ∧
        req.complete = some c ∧
        rs.next_complete = NextComplete.next c) := by
  refine ⟨by simp [Requests.is_complete, Requests.num_answered],
    next_complete_done_iff rs, ?_⟩
  exact fun hic => reqInv_next_complete (reach_inv hcov hreach) hic

/-- Witness for C7 at the demo batch after one answered request. -/
theorem c7_witness :
    (demoRs1.is_complete = true ↔
      demoRs1.num_answered = demoRs1.requests.length) ∧
    (demoRs1.next_complete = NextComplete.done ↔
      demoRs1.is_complete = true) ∧
    (demoRs1.is_complete = false →
      ∃ req c, demoRs1.requests.get? demoRs1.answered = some req ∧
        req.complete = some c ∧
        demoRs1.next_complete = NextComplete.next c) :=
  c7_completion demoCheck_covers demoReach1

/-- Claim C8: `respond_to_all` never fails on a reachable batch: it returns
the sequence of responses accepted by consecutive successful
`supply_response` calls from the start, in order, stopping at the first of:
no next request, no response from the responder, or a rejected response
(which is not included in the result). -/
theorem c8_respond_to_all {E : Type}
    {check : Req → CompleteReq → Unit → Response → Except E Unit}
    (hcov : RespOutsCover check) (responder : CompleteReq → Option Response)
    {rs : Requests} (hreach : ReqsReach check rs) :
    ∃ l, Requests.respond_to_all check responder rs = some l ∧
      RespondSpec check responder rs l := by
  suffices main : ∀ (fuel : Nat) (rs0 : Requests),
      rs0.requests.length - rs0.answered ≤ fuel → ReqsReach check rs0 →
      ∃ l, Requests.respond_to_all check responder rs0 = some l ∧
        RespondSpec check responder rs0 l by
    exact main _ rs (Nat.le_refl _) hreach
  intro fuel
  induction fuel with
  | zero =>
    intro rs0 hle hreach0
    obtain ⟨ha, -, -, -⟩ := reach_inv hcov hreach0
    have hlen : rs0.answered = rs0.requests.length := by omega
    have hdone : rs0.next_complete = NextComplete.done :=
      (next_complete_done_iff rs0).mpr (by simp [Requests.is_complete, hlen])
    exact ⟨[], respond_to_all_done check responder rs0 hdone,
      RespondSpec.stopDone hdone⟩
  | succ fuel ih =>
    intro rs0 hle hreach0
    have hinv := reach_inv hcov hreach0
    by_cases hic : rs0.is_complete = true
    · have hdone := (next_complete_done_iff rs0).mpr hic
      exact ⟨[], respond_to_all_done check responder rs0 hdone,
        RespondSpec.stopDone hdone⟩
    · have hic2 : rs0.is_complete = false := by simpa using hic
      obtain ⟨req, c, hget, hcomp, hnc⟩ := reqInv_next_complete hinv hic2
      cases hresp : responder c with
      | none =>
        exact ⟨[], respond_to_all_no_response check responder rs0 c hnc hresp,
          RespondSpec.stopNoResponse hnc hresp⟩
      | some resp =>
        cases hcheck : check req c () resp with
        | error e =>
          have hs := supply_validity check rs0 () resp req c e hnc hget hcheck
          exact ⟨[], respond_to_all_rejected check responder rs0 rs0 c resp _
              hnc hresp hs,
            RespondSpec.stopRejected hnc hresp hs⟩
        | ok x =>
          cases x
          have hs0 := supply_ok_construct check rs0 () resp req c () hnc hget
            hcheck
          obtain ⟨rs1, hs1⟩ : ∃ rs1, Requests.supply_response check rs0 () resp
              = some (rs1, Except.ok ()) := ⟨_, hs0⟩
          obtain ⟨-, -, -, -, -, -, -, hrs1⟩ := supply_ok_destruct hs1
          have hans1 : rs1.answered = rs0.answered + 1 := by rw [hrs1]
          have hlen1 : rs1.requests.length = rs0.requests.length := by
            rw [hrs1]
            exact fillFrom_length _ _ _
          have hreach1 : ReqsReach check rs1 := ReqsReach.step hreach0 hs1
          have hmeas : rs1.requests.length - rs1.answered ≤ fuel := by
            have hlt0 : rs0.answered < rs0.requests.length := get?_some_lt hget
            omega
          obtain ⟨l, hl, hspec⟩ := ih rs1 hmeas hreach1
          refine ⟨resp :: l, ?_, RespondSpec.step hnc hresp hs1 hspec⟩
          rw [respond_to_all_step check responder rs0 rs1 c resp hnc hresp hs1,
            hl]

/-- Witness for C8: driving the demo batch with a responder that always
answers `demoResp`. -/
theorem c8_witness :
    ∃ l, Requests.respond_to_all demoCheck demoResponder demoRs0 = some l ∧
      RespondSpec demoCheck demoResponder demoRs0 l :=
  c8_respond_to_all demoCheck_covers demoResponder demoReach0

/-- Claim C9: `map_requests f` applies `f` to every request in order,
preserving the sequence length, and leaves the resolved-output map and the
answered cursor unchanged. -/
theorem c9_map_requests_frame (rs : Requests) (f : Req → Req) :
    (rs.map_requests f).requests = rs.requests.map f ∧
    (rs.map_requests f).requests.length = rs.requests.length ∧
    (∀ i, (rs.map_requests f).requests.get? i = (rs.requests.get? i).map f) ∧
    (rs.map_requests f).outputs = rs.outputs ∧
    (rs.map_requests f).answered = rs.answered := by
  refine ⟨rfl, by simp [Requests.map_requests], ?_, rfl, rfl⟩
  intro i
  simp [Requests.map_requests, List.get?_map]

/-- Claim C10: `supply_response` is atomic on failure: whenever it returns an
error, the whole state — the resolved-output map, the request sequence and
the cursor — is returned unchanged. -/
theorem c10_supply_error_atomic {Env E X : Type}
    {check : Req → CompleteReq → Env → Response → Except E X}
    {rs rs' : Requests} {env : Env} {resp : Response} {e : ResponseError E}
    (h : Requests.supply_response check rs env resp =
      some (rs', Except.error e)) :
    rs' = rs ∧ rs'.outputs = rs.outputs ∧ rs'.requests = rs.requests ∧
    rs'.num_answered = rs.num_answered := by
  have h1 := (supply_error_destruct h).1
  exact ⟨h1, by rw [h1], by rw [h1], by rw [h1]⟩

/-- Witness for C10: a response carrying no outputs is rejected by `demoCheck`
for the first demo request, and the batch is returned unchanged. -/
theorem c10_witness : demoRs0 = demoRs0 ∧ demoRs0.outputs = demoRs0.outputs ∧
    demoRs0.requests = demoRs0.requests ∧
    demoRs0.num_answered = demoRs0.num_answered :=
  c10_supply_error_atomic
    (show Requests.supply_response demoCheck demoRs0 () demoBadResp =
      some (demoRs0, Except.error (ResponseError.validity ())) from rfl)

end Parity
